import Mathlib

/-!
# ali-oss-uploader-node: the synchronisation engine

A shallow embedding of `src/ali-oss-uploader.js` and of
`traverseCurDirectoryWithRetry` from `src/upload-local-files.js`.

* Strings are Lean strings; `convertToOSSPath` is the global replacement of the
  backslash by the forward slash.
* The OSS client (`aliOssClient.head`, `aliOssClient.put`) is an oracle `Remote`:
  the answer to a call depends on its arguments and on how many calls of that kind
  the pipeline has already made.  Every call and every `setTimeout` wait is
  appended to the `trace` of a `World`.
* A rejected promise is `Except.error`, a fulfilled one `Except.ok`.  The two
  retrying functions call themselves, so they take a recursion budget `fuel`;
  `none` means the budget ran out.
* JavaScript scoping is kept: a `const` declared inside a `try` block is not
  visible in the `catch` block, where reading it raises a `ReferenceError`.
-/

set_option linter.unusedVariables false

namespace AliOssUploader

/-! ## Configuration constants (lines 9-11) -/

/-- Constant `CONCURRENT_LIMIT` of the module. -/
def CONCURRENT_LIMIT : Nat := 10

/-- Constant `MAX_RETRIES` of the module. -/
def MAX_RETRIES : Int := 3

/-- Constant `RETRY_DELAY_BASE` of the module, in milliseconds. -/
def RETRY_DELAY_BASE : Int := 1000

/-! ## Path mapper -/

/-- The backslash character, code unit 92. -/
def backslash : Char := Char.ofNat 92

/-- The forward slash character, code unit 47. -/
def slash : Char := Char.ofNat 47

/-- Function `convertToOSSPath` (lines 28-30): `windowsPath.replace(/\\/g, "/")`,
every backslash replaced by a forward slash. -/
def convertToOSSPath (windowsPath : String) : String :=
  ⟨windowsPath.data.map (fun c => if c = backslash then slash else c)⟩

/-! ## Errors, options and the remote store -/

/-- Values a promise can be rejected with: an error object of the OSS client, which
carries a `code` and a `message`, or the `ReferenceError` raised by reading a name
that is not bound in the current scope. -/
inductive JsError where
  | remote (code : String) (message : String)
  | reference (name : String)
deriving DecidableEq, Repr

/-- Property `error.code`; a `ReferenceError` has none (`undefined`). -/
def JsError.code : JsError → Option String
  | .remote c _ => some c
  | .reference _ => none

/-- Property `error.message`. -/
def JsError.message : JsError → String
  | .remote _ m => m
  | .reference n => n ++ " is not defined"

/-- The option object `opt` passed around by the callers; an absent field is `none`. -/
structure Opt where
  concurrentLimit : Option Nat
  maxRetries : Option Int
  logLevel : Option Nat
deriving DecidableEq, Repr

/-- A value passed in the position of the parameter `_retriesLeft`: nothing, a number,
or (from `traverseCurDirectoryWithRetry`, line 95) the option object. -/
inductive JsArg where
  | undefined
  | number (n : Int)
  | object (o : Opt)
deriving DecidableEq, Repr

/-- Operator `a ?? b` on such a value. -/
def JsArg.orElse : JsArg → JsArg → JsArg
  | .undefined, b => b
  | a, _ => a

/-- Destructuring `const { maxRetries = MAX_RETRIES } = opt || {}`. -/
def maxRetriesOf (opt : Option Opt) : Int :=
  (opt.bind Opt.maxRetries).getD MAX_RETRIES

/-- Destructuring `const { concurrentLimit = CONCURRENT_LIMIT } = opt || {}`. -/
def concurrentLimitOf (opt : Option Opt) : Nat :=
  (opt.bind Opt.concurrentLimit).getD CONCURRENT_LIMIT

/-- Answer of `aliOssClient.head`: the object is there, or the call fails with an
error carrying a code. -/
inductive HeadResp where
  | ok
  | fail (code : String) (message : String)
deriving DecidableEq, Repr

/-- Answer of `aliOssClient.put`: the stored object (its `name`), or a failure. -/
inductive PutResp where
  | ok (name : String)
  | fail (code : String) (message : String)
deriving DecidableEq, Repr

/-- The remote store as an oracle: `head key n` answers the `n`-th `head` call
(counted from 0) of a pipeline, `put key localPath n` its `n`-th `put` call. -/
structure Remote where
  head : String → Nat → HeadResp
  put : String → String → Nat → PutResp

/-- What a pipeline does that is visible outside it. -/
inductive Event where
  | head (key : String)
  | put (key : String) (localPath : String)
  | sleep (ms : Int)
deriving DecidableEq, Repr

/-- State of one pipeline: the calls made so far and the trace of its events. -/
structure World where
  heads : Nat
  puts : Nat
  trace : List Event
deriving DecidableEq, Repr

/-- A pipeline that has done nothing yet. -/
def World.init : World := ⟨0, 0, []⟩

/-- Number of `head` calls in a trace. -/
def headCalls (tr : List Event) : Nat :=
  (tr.filter (fun e => match e with | .head _ => true | _ => false)).length

/-- Number of `put` calls in a trace. -/
def putCalls (tr : List Event) : Nat :=
  (tr.filter (fun e => match e with | .put _ _ => true | _ => false)).length

/-- The waits of a trace, in order. -/
def delays (tr : List Event) : List Int :=
  tr.filterMap (fun e => match e with | .sleep ms => some ms | _ => none)

/-- The error codes treated as network errors (lines 120-125 and 179-184). -/
def networkCodes : List String :=
  ["ETIMEDOUT", "ECONNRESET", "EHOSTUNREACH", "RequestError"]

/-- Expression `[...].includes(error.code)`. -/
def isNetworkError (code : Option String) : Bool :=
  match code with
  | some c => networkCodes.contains c
  | none => false

/-- Numeric bindings visible from a `catch` block of the two retrying functions: the
module constants.  The parameters (`ossFilePath`, `_retriesLeft`, `opt`, ...) are
visible too but none of them is called `retriesLeft` or `maxRetries`; those two are
`const`s of the `try` block (lines 108-110 and 155-157) and are out of scope here. -/
def catchScope : List (String × Int) :=
  [("CONCURRENT_LIMIT", (CONCURRENT_LIMIT : Int)), ("MAX_RETRIES", MAX_RETRIES),
   ("RETRY_DELAY_BASE", RETRY_DELAY_BASE)]

/-- Reading an identifier in a scope: its value, or a `ReferenceError`. -/
def readVar (scope : List (String × Int)) (name : String) : Except JsError Int :=
  match scope.lookup name with
  | some v => .ok v
  | none => .error (.reference name)

/-! ## Existence check and single-file pipeline -/

/-- Function `checkFileExistsWithRetry` (lines 106-143). -/
def checkFileExistsWithRetry (remote : Remote) :
    Nat → String → JsArg → Option Opt → World → Option (Except JsError Bool × World)
  | 0, _, _, _, _ => none
  | fuel + 1, ossFilePath, _retriesLeft, opt, w =>
    -- try: the two consts below live in this block only
    let maxRetries : Int := maxRetriesOf opt
    let retriesLeft : JsArg := _retriesLeft.orElse (.number maxRetries)
    let w1 : World := ⟨w.heads + 1, w.puts, w.trace ++ [.head ossFilePath]⟩
    match remote.head ossFilePath w.heads with
    | .ok => some (.ok true, w1)
    | .fail code message =>
      -- catch (error)
      let error := JsError.remote code message
      if error.code = some "NoSuchKey" then some (.ok false, w1)
      else if isNetworkError error.code then
        -- `isNetworkError && retriesLeft > 0`: the right operand is evaluated
        match readVar catchScope "retriesLeft" with
        | .error e => some (.error e, w1)
        | .ok retriesLeft =>
          if retriesLeft > 0 then
            match readVar catchScope "maxRetries" with
            | .error e => some (.error e, w1)
            | .ok maxRetries =>
              let delay := RETRY_DELAY_BASE * (maxRetries - retriesLeft + 1)
              let w2 : World := ⟨w1.heads, w1.puts, w1.trace ++ [.sleep delay]⟩
              checkFileExistsWithRetry remote fuel ossFilePath (.number (retriesLeft - 1)) none w2
          else some (.error error, w1)
      else some (.error error, w1)

/-- The object `uploadSingleFileWithRetry` resolves to; the failure object has no
`skipped` field. -/
structure UploadResult where
  success : Bool
  skipped : Option Bool
  path : String
  message : String
deriving DecidableEq, Repr

/-- The `catch` block of `uploadSingleFileWithRetry` (lines 177-206), given the
continuation `retry` for the recursive call of lines 193-197. -/
def uploadCatch (ossFilePath : String) (error : JsError) (w : World)
    (retry : Int → World → Option (Except JsError UploadResult × World)) :
    Option (Except JsError UploadResult × World) :=
  if isNetworkError error.code then
    -- `isNetworkError && retriesLeft > 0`: the right operand is evaluated
    match readVar catchScope "retriesLeft" with
    | .error e => some (.error e, w)
    | .ok retriesLeft =>
      if retriesLeft > 0 then
        match readVar catchScope "maxRetries" with
        | .error e => some (.error e, w)
        | .ok maxRetries =>
          let delay := RETRY_DELAY_BASE * (maxRetries - retriesLeft + 1)
          retry (retriesLeft - 1) ⟨w.heads, w.puts, w.trace ++ [.sleep delay]⟩
      else some (.ok ⟨false, none, ossFilePath, "上传最终失败：" ++ error.message⟩, w)
  else some (.ok ⟨false, none, ossFilePath, "上传最终失败：" ++ error.message⟩, w)

/-- Function `uploadSingleFileWithRetry` (lines 148-207). -/
def uploadSingleFileWithRetry (remote : Remote) :
    Nat → String → String → JsArg → Option Opt → World →
      Option (Except JsError UploadResult × World)
  | 0, _, _, _, _, _ => none
  | fuel + 1, localFilePath, ossFilePath, _retriesLeft, opt, w =>
    let retry := fun (n : Int) (w2 : World) =>
      uploadSingleFileWithRetry remote fuel localFilePath ossFilePath (.number n) none w2
    -- try
    let maxRetries : Int := maxRetriesOf opt
    let retriesLeft : JsArg := _retriesLeft.orElse (.number maxRetries)
    match checkFileExistsWithRetry remote (fuel + 1) ossFilePath .undefined none w with
    | none => none
    | some (.error error, w1) => uploadCatch ossFilePath error w1 retry
    | some (.ok true, w1) =>
      some (.ok ⟨true, some true, ossFilePath, "文件已存在，已跳过"⟩, w1)
    | some (.ok false, w1) =>
      let w2 : World := ⟨w1.heads, w1.puts + 1, w1.trace ++ [.put ossFilePath localFilePath]⟩
      match remote.put ossFilePath localFilePath w1.puts with
      | .ok name => some (.ok ⟨true, some false, name, "上传成功"⟩, w2)
      | .fail code message => uploadCatch ossFilePath (.remote code message) w2 retry

/-! ## Tree collector -/

/-- A directory entry as `fs.readdir(dir, { withFileTypes: true })` lists it, with the
content of a sub-directory attached: `isDirectory()` holds of `dir` only. -/
inductive Entry where
  | file (name : String)
  | dir (name : String) (children : List Entry)
deriving Repr

/-- Property `entry.name`. -/
def Entry.name : Entry → String
  | .file n => n
  | .dir n _ => n

/-- The two library functions the module joins paths with: `path.join` of the host
platform and `path.posix.join`.  They belong to Node, not to the repository, and are
parameters of the model. -/
structure PathLib where
  join : String → String → String
  posixJoin : String → String → String

/-- An element `{ localPath, ossPath }` of the file list. -/
structure WorkItem where
  localPath : String
  ossPath : String
deriving DecidableEq, Repr

mutual
/-- Function `collectAllFiles` (lines 212-227), run on the entries of `localDir`. -/
def collectAllFiles (P : PathLib) (localDir ossBaseDir : String) : List Entry → List WorkItem
  | [] => []
  | entry :: rest =>
    collectEntry P localDir ossBaseDir entry ++ collectAllFiles P localDir ossBaseDir rest
/-- Body of the `for` loop of `collectAllFiles` (lines 217-224) for one entry. -/
def collectEntry (P : PathLib) (localDir ossBaseDir : String) : Entry → List WorkItem
  | .dir name children =>
    collectAllFiles P (P.join localDir name) (P.posixJoin ossBaseDir name) children
  | .file name =>
    [⟨P.join localDir name, convertToOSSPath (P.posixJoin ossBaseDir name)⟩]
end

/-! ## Concurrent upload

`uploadFilesConcurrently` is a coroutine: it runs until it awaits, and the pipelines it
started go on and settle while it is suspended.  The model is a transition function on
the state of the coroutine, driven by a list of ticks that fixes the interleaving.  A
pipeline is deterministic once the remote store is fixed, so its events are known when
it starts; the interleaving decides when each of them is issued. -/

/-- Where the coroutine `uploadFilesConcurrently` stands. -/
inductive Mode where
  | loop
  | awaitRace
  | awaitAll
  | returned
  | thrown (e : JsError)
deriving DecidableEq, Repr

/-- State of `uploadFilesConcurrently`.  A task is named by the index of its file in
`fileList`; `next` is the position of the `for` loop.  `settles` holds, for every
started pipeline that settles at all, what it settles with; `queued` the events a
started pipeline has still to issue, in order; `rejected` the tasks that have rejected
(their `then` callback never runs, so they stay in `executing`); `trace` the events
issued so far. -/
structure Sched where
  next : Nat
  executing : List Nat
  settles : List (Nat × Except JsError UploadResult)
  queued : List (Nat × List Event)
  rejected : List (Nat × JsError)
  results : List UploadResult
  trace : List Event
  mode : Mode

/-- State at the entry of the `for` loop: `results = []`, `executing = []`. -/
def Sched.init : Sched := ⟨0, [], [], [], [], [], [], .loop⟩

/-- Statement `executing.splice(executing.indexOf(task), 1)`: the first occurrence of
the task is removed; `indexOf` gives -1 for an absent task and `splice(-1, 1)` removes
the last element. -/
def spliceTask (executing : List Nat) (task : Nat) : List Nat :=
  if task ∈ executing then executing.erase task else executing.dropLast

/-- The reason `Promise.race(executing)` or `Promise.all(executing)` rejects with at
once: that of the first task of the array that has already rejected. -/
def firstRejected (s : Sched) : Option JsError :=
  s.executing.findSome? (fun t => s.rejected.lookup t)

/-- An interleaving step: the coroutine runs up to its next suspension, the pipeline of
task `t` gets the answer it waits for and issues its next event, or the pipeline of
task `t` settles. -/
inductive Tick where
  | resume
  | advance (t : Nat)
  | settle (t : Nat)
deriving DecidableEq, Repr

/-- One loop iteration of `uploadFilesConcurrently` (lines 238-255), or the
`Promise.all` after the loop (line 257).  The call of line 239 runs the pipeline up to
its first `await`: its first event (the `head` call) is issued at once, the later ones
are queued.  A pipeline whose recursion budget is exhausted (`fuel = 0`) issues nothing
and never settles. -/
def resumeLoop (remote : Remote) (fuel : Nat) (concurrentLimit : Nat)
    (fileList : List WorkItem) (s : Sched) : Sched :=
  match fileList.get? s.next with
  | some file =>
    let task := s.next
    let run := uploadSingleFileWithRetry remote fuel file.localPath file.ossPath
      .undefined none World.init
    let settles := match run with
      | some (r, _) => s.settles ++ [(task, r)]
      | none => s.settles
    let queued := match run with
      | some (_, w) => s.queued ++ [(task, w.trace.drop 1)]
      | none => s.queued
    let trace := match run with
      | some (_, w) => s.trace ++ w.trace.take 1
      | none => s.trace
    let executing := s.executing ++ [task]
    let s1 : Sched :=
      ⟨s.next + 1, executing, settles, queued, s.rejected, s.results, trace, .loop⟩
    if executing.length ≥ concurrentLimit then
      match firstRejected s1 with
      | some e => { s1 with mode := .thrown e }
      | none => { s1 with mode := .awaitRace }
    else s1
  | none =>
    match firstRejected s with
    | some e => { s with mode := .thrown e }
    | none => if s.executing = [] then { s with mode := .returned }
              else { s with mode := .awaitAll }

/-- The pipeline of task `t` goes on: its next queued event is issued. -/
def advanceTask (t : Nat) (s : Sched) : Sched :=
  match s.queued.lookup t with
  | some (e :: rest) =>
    { s with queued := s.queued.map (fun p => if p.1 = t then (t, rest) else p),
             trace := s.trace ++ [e] }
  | _ => s

/-- The pipeline of task `t` settles, which it can do once it has issued all its
events.  Fulfilled: the `then` callback of lines 240-246 runs; a coroutine waiting in
`Promise.race` is woken, one waiting in `Promise.all` returns once nothing is left.
Rejected: the callback does not run and a waiting coroutine throws. -/
def settleTask (t : Nat) (s : Sched) : Sched :=
  if t ∈ s.executing ∧ s.rejected.lookup t = none ∧ s.queued.lookup t = some [] then
    match s.settles.lookup t with
    | some (.ok result) =>
      let executing := spliceTask s.executing t
      let results := s.results ++ [result]
      let mode := match s.mode with
        | .awaitRace => Mode.loop
        | .awaitAll => if executing = [] then Mode.returned else Mode.awaitAll
        | m => m
      { s with executing := executing, results := results, mode := mode }
    | some (.error e) =>
      let mode := match s.mode with
        | .awaitRace => Mode.thrown e
        | .awaitAll => Mode.thrown e
        | m => m
      { s with rejected := s.rejected ++ [(t, e)], mode := mode }
    | none => s
  else s

/-- One step of the interleaving.  After `return` or `throw` nothing changes; a tick
that cannot happen in the current state changes nothing either.  A pipeline may go on
or settle in mode `loop` as well: that can happen between the wake-up of the coroutine
and its next loop iteration. -/
def step (remote : Remote) (fuel : Nat) (concurrentLimit : Nat) (fileList : List WorkItem)
    (tick : Tick) (s : Sched) : Sched :=
  match s.mode, tick with
  | .returned, _ => s
  | .thrown _, _ => s
  | .loop, .resume => resumeLoop remote fuel concurrentLimit fileList s
  | _, .resume => s
  | _, .advance t => advanceTask t s
  | _, .settle t => settleTask t s

/-- Function `uploadFilesConcurrently` (lines 232-259) under the interleaving `ticks`:
the state reached.  In mode `returned` the function has returned `results`; in mode
`thrown e` it has rejected with `e`. -/
def uploadFilesConcurrently (remote : Remote) (fuel : Nat) (fileList : List WorkItem)
    (opt : Option Opt) (ticks : List Tick) : Sched :=
  ticks.foldl (fun s tick => step remote fuel (concurrentLimitOf opt) fileList tick s)
    Sched.init

/-! ## Directory traversal with the resumability log -/

/-- Everything outside the program that a traversal depends on: the path library, the
remote store, the recursion budget of the pipelines, and the interleaving of each call
of `uploadFilesConcurrently`. -/
structure Env where
  paths : PathLib
  remote : Remote
  fuel : Nat
  schedule : List WorkItem → List Tick

/-- How a traversal stops before its end: `process.exit(1)`, a rejection, or a wait
that the given interleaving does not finish. -/
inductive Halt where
  | exit
  | rejected (e : JsError)
  | pending
deriving DecidableEq, Repr

/-- State of a traversal: the array `log` (the content of `data/log.json`, shared by
all the calls through the `require` cache and written back after each push) and the
trace of the remote events so far. -/
structure TravState where
  log : List String
  trace : List Event
deriving DecidableEq, Repr

/-- Function `traverseDirectoryWithRetry` (lines 266-298), run on the entries of
`localDir`: the events it adds and how it ends.  A rejection of
`uploadFilesConcurrently` is caught and ends the process. -/
def traverseDirectoryWithRetry (env : Env) (localDir ossDir : String) (opt : Option Opt)
    (entries : List Entry) : List Event × Option Halt :=
  let allFiles := collectAllFiles env.paths localDir ossDir entries
  let s := uploadFilesConcurrently env.remote env.fuel allFiles opt (env.schedule allFiles)
  match s.mode with
  | .returned => (s.trace, none)
  | .thrown _ => (s.trace, some .exit)
  | _ => (s.trace, some .pending)

/-- Destructuring `const { logLevel = 1 } = opt || {}`. -/
def logLevelOf (opt : Option Opt) : Nat :=
  (opt.bind Opt.logLevel).getD 1

/-- Object `{ ...opt, logLevel: logLevel - 1 }`. -/
def withLogLevel (opt : Option Opt) (logLevel : Nat) : Opt :=
  ⟨opt.bind Opt.concurrentLimit, opt.bind Opt.maxRetries, some logLevel⟩

/-- The value `opt` in the position of `_retriesLeft` (line 95). -/
def optAsArg : Option Opt → JsArg
  | some o => .object o
  | none => .undefined

/-- The identifier `localPath + "---" + ossPath` written to the log. -/
def logValOf (localPath ossPath : String) : String :=
  localPath ++ "---" ++ ossPath

mutual
/-- Function `traverseCurDirectoryWithRetry` of `upload-local-files.js` (lines 61-103),
run on the entries of `localDir`. -/
def traverseCurDirectoryWithRetry (env : Env) (localDir ossDir : String) (opt : Option Opt) :
    List Entry → TravState → TravState × Option Halt
  | [], st => (st, none)
  | entry :: rest, st =>
    let localPath := env.paths.join localDir entry.name
    let ossPath := env.paths.join ossDir entry.name
    let logVal := logValOf localPath ossPath
    if st.log.contains logVal then
      traverseCurDirectoryWithRetry env localDir ossDir opt rest st
    else
      match traverseCurEntry env localPath ossPath opt entry st with
      | (st1, some h) => (st1, some h)
      | (st1, none) =>
        traverseCurDirectoryWithRetry env localDir ossDir opt rest
          ⟨st1.log ++ [logVal], st1.trace⟩
/-- Lines 82-96 of the loop body: what is done with an entry that is not in the log. -/
def traverseCurEntry (env : Env) (localPath ossPath : String) (opt : Option Opt) :
    Entry → TravState → TravState × Option Halt
  | .dir _ children, st =>
    let logLevel := logLevelOf opt
    if logLevel ≥ 2 then
      traverseCurDirectoryWithRetry env localPath ossPath
        (some (withLogLevel opt (logLevel - 1))) children st
    else
      let r := traverseDirectoryWithRetry env localPath ossPath opt children
      (⟨st.log, st.trace ++ r.1⟩, r.2)
  | .file _, st =>
    match uploadSingleFileWithRetry env.remote env.fuel localPath ossPath (optAsArg opt) none
        World.init with
    | none => (st, some .pending)
    | some (.error e, w) => (⟨st.log, st.trace ++ w.trace⟩, some (.rejected e))
    | some (.ok _, w) => (⟨st.log, st.trace ++ w.trace⟩, none)
end

/-! ## Reference descriptions of a tree, used to state the claims -/

mutual
/-- The regular files of a tree in depth-first directory-entry order, each named by
the chain of entry names that leads to it from the root. -/
def regularFiles : List Entry → List (List String)
  | [] => []
  | entry :: rest => regularFilesOf entry ++ regularFiles rest
/-- The regular files at or below one entry. -/
def regularFilesOf : Entry → List (List String)
  | .file name => [[name]]
  | .dir name children => (regularFiles children).map (fun chain => name :: chain)
end

mutual
/-- Within every directory of the tree the entries have pairwise different names, as
in a file system. -/
def distinctNames : List Entry → Bool
  | [] => true
  | entry :: rest =>
    !(rest.map Entry.name).contains entry.name && distinctNamesIn entry && distinctNames rest
/-- The same below one entry. -/
def distinctNamesIn : Entry → Bool
  | .file _ => true
  | .dir _ children => distinctNames children
end

mutual
/-- The names of all the entries of a tree. -/
def entryNames : List Entry → List String
  | [] => []
  | entry :: rest => entryNamesOf entry ++ entryNames rest
/-- The names of an entry and of all the entries below it. -/
def entryNamesOf : Entry → List String
  | .file name => [name]
  | .dir name children => name :: entryNames children
end

/-- What is needed of `path.join` below the directory `root` for entry names in
`names`.  A directory reached from `root` is `root` with a chain of names joined on.
Two joins of a name on to such directories are equal only when the directories and the
names are equal, and no such join gives back `root`.  Node's `path.join` is so when
the names are plain (not empty, without separator, neither `.` nor `..`): the result
is normalised and ends with the separator and the name. -/
def JoinRegular (join : String → String → String) (root : String) (names : List String) :
    Prop :=
  (∀ (c c' : List String) (b b' : String), (∀ n ∈ c, n ∈ names) → (∀ n ∈ c', n ∈ names) →
    b ∈ names → b' ∈ names →
    join (c.foldl join root) b = join (c'.foldl join root) b' →
    c.foldl join root = c'.foldl join root ∧ b = b') ∧
  (∀ (c : List String) (b : String), (∀ n ∈ c, n ∈ names) → b ∈ names →
    join (c.foldl join root) b ≠ root)

/-- The work item of the file reached from `(localDir, ossBaseDir)` by a chain of
names: the names joined one after the other, with `path.join` on the local side and
with `path.posix.join`, then `convertToOSSPath`, on the remote side. -/
def itemAt (P : PathLib) (localDir ossBaseDir : String) (chain : List String) : WorkItem :=
  ⟨chain.foldl P.join localDir, convertToOSSPath (chain.foldl P.posixJoin ossBaseDir)⟩

mutual
/-- The tree without the entries that a traversal at `level` finds in `log`: an entry
of the first `level` levels (of the first level when `level` is below 2) is dropped,
with all below it, when its identifier is in `log`. -/
def pruneLogged (join : String → String → String) (log : List String) :
    Nat → String → String → List Entry → List Entry
  | _, _, _, [] => []
  | level, localDir, ossDir, entry :: rest =>
    if log.contains (logValOf (join localDir entry.name) (join ossDir entry.name)) then
      pruneLogged join log level localDir ossDir rest
    else
      pruneLoggedIn join log level (join localDir entry.name) (join ossDir entry.name) entry ::
        pruneLogged join log level localDir ossDir rest
/-- The same inside one entry that is kept. -/
def pruneLoggedIn (join : String → String → String) (log : List String) :
    Nat → String → String → Entry → Entry
  | _, _, _, .file name => .file name
  | level, localPath, ossPath, .dir name children =>
    if level ≥ 2 then .dir name (pruneLogged join log (level - 1) localPath ossPath children)
    else .dir name children
end

/-- Invariant of the scheduler: at most `limit` tasks in `executing`, and fewer than
`limit` whenever the coroutine is about to run a loop iteration. -/
def SchedInv (limit : Nat) (s : Sched) : Prop :=
  s.executing.length ≤ limit ∧ (s.mode = .loop → s.executing.length < limit)

/-- Invariant of the scheduler on what has been dispatched: the `head` call of every
file before the loop position has been issued, and the loop is over once the coroutine
waits in `Promise.all` or has returned. -/
def DispatchInv (fileList : List WorkItem) (s : Sched) : Prop :=
  (∀ (i : Nat) (f : WorkItem), i < s.next → fileList.get? i = some f →
    Event.head f.ossPath ∈ s.trace) ∧
  ((s.mode = .returned ∨ s.mode = .awaitAll) → fileList.length ≤ s.next)

/-- The identifier of an entry of `localDir` as line 77 builds it. -/
def entryLogVal (env : Env) (localDir ossDir : String) (entry : Entry) : String :=
  logValOf (env.paths.join localDir entry.name) (env.paths.join ossDir entry.name)

/-! ## Reference descriptions of a path, used to state the identifier claim -/

/-- The hyphen character, code unit 45. -/
def hyphen : Char := Char.ofNat 45

/-- The separator `"---"` that `logValOf` puts between the two paths. -/
def separator : String := "---"

/-- The string contains the separator as a substring (`s.includes("---")`). -/
def hasSeparator (s : String) : Bool :=
  decide (separator.data <:+: s.data)

/-- What `path.join(dir, name)` is for the name of a directory entry, `isSep` telling
the separator characters of the platform: the name holds no separator, and the result
is the name behind a directory part that is empty or ends with a separator.  Node's
`path.join` is so on a plain name (not empty, neither `.` nor `..`): it normalises the
directory and puts the name behind it as the last segment. -/
def JoinsName (join : String → String → String) (isSep : Char → Bool) (dir name : String) :
    Prop :=
  (∀ ch ∈ name.data, isSep ch = false) ∧
  ∃ A : List Char, (join dir name).data = A ++ name.data ∧
    (A = [] ∨ ∃ ch, A.getLast? = some ch ∧ isSep ch = true)

/-- The separator test of a POSIX host: the slash. -/
def posixSep (ch : Char) : Bool := ch == slash

/-! ## Concrete inputs -/

/-- The remote store that refuses every `head` with `AccessDenied`. -/
def remoteDenied : Remote :=
  ⟨fun _ _ => .fail "AccessDenied" "denied", fun k _ _ => .ok k⟩

/-- The remote store whose first `head` answer is a timeout and whose later answers
say the object is there. -/
def remoteFlaky : Remote :=
  ⟨fun _ n => if n = 0 then .fail "ETIMEDOUT" "timeout" else .ok, fun k _ _ => .ok k⟩

/-- The remote store that holds `a.txt` and nothing else, and accepts every `put`. -/
def remoteHasA : Remote :=
  ⟨fun k _ => if k = "a.txt" then .ok else .fail "NoSuchKey" "missing", fun k _ _ => .ok k⟩

/-- The remote store that holds nothing and times out on every `put`. -/
def remotePutTimeout : Remote :=
  ⟨fun _ _ => .fail "NoSuchKey" "missing", fun _ _ _ => .fail "ETIMEDOUT" "timeout"⟩

/-- The path library of a POSIX host on plain names: directory, slash, name. -/
def posixLib : PathLib := ⟨fun a b => a ++ "/" ++ b, fun a b => a ++ "/" ++ b⟩

/-- The tree with the file `a.txt` and the directory `b` holding `c.txt`. -/
def treeAB : List Entry := [.file "a.txt", .dir "b" [.file "c.txt"]]

/-- Three files to upload. -/
def threeFiles : List WorkItem :=
  [⟨"d/a.txt", "a.txt"⟩, ⟨"d/b.txt", "b.txt"⟩, ⟨"d/c.txt", "c.txt"⟩]

/-- Options with `concurrentLimit: 2`. -/
def optLimit2 : Option Opt := some ⟨some 2, none, none⟩

/-- The remote store that holds nothing and accepts every `put`. -/
def remoteEmpty : Remote :=
  ⟨fun _ _ => .fail "NoSuchKey" "missing", fun k _ _ => .ok k⟩

/-- The interleaving of a one-file upload: dispatch (the `head` call), end of loop, the
answer to `head` (the `put` call, if any), settlement. -/
def oneFileSchedule : List WorkItem → List Tick :=
  fun _ => [.resume, .resume, .advance 0, .settle 0]

/-- An empty remote store behind a POSIX path library. -/
def envEmpty : Env := ⟨posixLib, remoteEmpty, 1, oneFileSchedule⟩

/-- A remote store that denies every `head`, behind a POSIX path library. -/
def envDenied (fuel : Nat) : Env := ⟨posixLib, remoteDenied, fuel, oneFileSchedule⟩

/-- The tree with the directory `sub` holding `f.txt`. -/
def treeSub : List Entry := [.dir "sub" [.file "f.txt"]]

/-- A log that lists the file `sub/f.txt`, as a run with `logLevel: 2` writes it. -/
def logDeep : List String := ["d/sub/f.txt---o/sub/f.txt"]

/-- A log that lists the two top-level entries of `treeAB`. -/
def logTop : List String := ["d/a.txt---o/a.txt", "d/b---o/b"]

/-- Options with `logLevel: 1`. -/
def optLevel1 : Option Opt := some ⟨none, none, some 1⟩

/-- Options with `logLevel: 2`. -/
def optLevel2 : Option Opt := some ⟨none, none, some 2⟩

/-! ## Helper lemmas -/

theorem readVar_retriesLeft :
    readVar catchScope "retriesLeft" = .error (.reference "retriesLeft") := rfl

theorem convertToOSSPath_data (s : String) :
    (convertToOSSPath s).data = s.data.map (fun c => if c = backslash then slash else c) := rfl

theorem slash_ne_backslash : slash ≠ backslash := by decide

/-- A network error answered to `head`: the check stops after that one call, rejected
with the `ReferenceError` of the unbound `retriesLeft`. -/
theorem check_network (remote : Remote) (fuel : Nat) (key : String) (rl : JsArg)
    (opt : Option Opt) (w : World) (code message : String)
    (hresp : remote.head key w.heads = .fail code message)
    (hnet : code ∈ networkCodes) :
    checkFileExistsWithRetry remote (fuel + 1) key rl opt w =
      some (.error (.reference "retriesLeft"), ⟨w.heads + 1, w.puts, w.trace ++ [.head key]⟩) := by
  have hns : code ≠ "NoSuchKey" := by
    intro h; subst h; revert hnet; decide
  have hn : isNetworkError (some code) = true := by
    simpa [isNetworkError] using hnet
  simp [checkFileExistsWithRetry, hresp, JsError.code, hns, hn, readVar_retriesLeft]

theorem convertToOSSPath_no_backslash (s : String) :
    backslash ∉ (convertToOSSPath s).data := by
  rw [convertToOSSPath_data]
  intro hmem
  obtain ⟨c, _, hc⟩ := List.mem_map.mp hmem
  by_cases hb : c = backslash
  · rw [if_pos hb] at hc
    exact slash_ne_backslash hc
  · rw [if_neg hb] at hc
    exact hb hc

/-! ## Claims -/

/-- C8: for every string `s`, `convertToOSSPath s` has the length of `s`; at every
position where `s` has a character `c` the result has a forward slash if `c` is the
backslash and `c` itself otherwise; so the result contains no backslash. -/
theorem convertToOSSPath_pointwise (s : String) :
    (convertToOSSPath s).length = s.length ∧
    (∀ (i : Nat) (c : Char), s.data[i]? = some c →
      (convertToOSSPath s).data[i]? = some (if c = backslash then slash else c)) ∧
    backslash ∉ (convertToOSSPath s).data := by
  refine ⟨?_, ?_, ?_⟩
  · show (convertToOSSPath s).data.length = s.data.length
    rw [convertToOSSPath_data, List.length_map]
  · intro i c h
    rw [convertToOSSPath_data, List.getElem?_map, h]
    rfl
  · exact convertToOSSPath_no_backslash s

/-- Witness of C8 on the path `a\b`: position 1 holds a backslash and becomes a slash. -/
theorem convertToOSSPath_pointwise_witness :
    (convertToOSSPath "a\\b").data[1]? = some slash :=
  (convertToOSSPath_pointwise "a\\b").2.1 1 backslash (by decide)

/-- C9: `convertToOSSPath` is idempotent, and it maps a string without backslash to
itself. -/
theorem convertToOSSPath_idempotent :
    (∀ s : String, convertToOSSPath (convertToOSSPath s) = convertToOSSPath s) ∧
    (∀ s : String, backslash ∉ s.data → convertToOSSPath s = s) := by
  have hfix : ∀ l : List Char, backslash ∉ l →
      l.map (fun c => if c = backslash then slash else c) = l := by
    intro l hl
    induction l with
    | nil => rfl
    | cons a t ih =>
      have ha : a ≠ backslash := fun h => hl (by simp [h])
      have ht : backslash ∉ t := fun h => hl (List.mem_cons_of_mem _ h)
      simp [ha, ih ht]
  have hid : ∀ s : String, backslash ∉ s.data → convertToOSSPath s = s := by
    intro s hs
    have : (convertToOSSPath s).data = s.data := by
      rw [convertToOSSPath_data]; exact hfix _ hs
    exact String.ext this
  exact ⟨fun s => hid _ (convertToOSSPath_no_backslash s), hid⟩

/-- Witness of C9: `a\b` converted twice, and `a/b` left as it is. -/
theorem convertToOSSPath_idempotent_witness :
    convertToOSSPath (convertToOSSPath "a\\b") = convertToOSSPath "a\\b" ∧
    convertToOSSPath "a/b" = "a/b" :=
  ⟨convertToOSSPath_idempotent.1 "a\\b", convertToOSSPath_idempotent.2 "a/b" (by decide)⟩

/-- C7: when `head` fails with a code that is neither `NoSuchKey` nor a network code,
`checkFileExistsWithRetry` rejects with that same error after this one `head` call,
whatever the retry budget (`_retriesLeft`, `opt`): the trace gains the `head` call and
nothing else, so no wait and no second call. -/
theorem check_fatal_once (remote : Remote) (fuel : Nat) (key : String) (rl : JsArg)
    (opt : Option Opt) (w : World) (code message : String)
    (hresp : remote.head key w.heads = .fail code message)
    (hns : code ≠ "NoSuchKey") (hnet : code ∉ networkCodes) :
    checkFileExistsWithRetry remote (fuel + 1) key rl opt w =
      some (.error (.remote code message), ⟨w.heads + 1, w.puts, w.trace ++ [.head key]⟩) ∧
    headCalls (w.trace ++ [.head key]) = headCalls w.trace + 1 ∧
    delays (w.trace ++ [.head key]) = delays w.trace := by
  have hn : isNetworkError (some code) = false := by
    simpa [isNetworkError] using hnet
  refine ⟨?_, ?_, ?_⟩
  · simp [checkFileExistsWithRetry, hresp, JsError.code, hns, hn]
  · simp [headCalls, List.filter_append]
  · simp [delays, List.filterMap_append]

/-- Witness of C7: `AccessDenied` with a budget of five retries. -/
theorem check_fatal_once_witness :
    checkFileExistsWithRetry remoteDenied 1 "a.txt" .undefined (some ⟨none, some 5, none⟩)
        World.init =
      some (.error (.remote "AccessDenied" "denied"), ⟨1, 0, [.head "a.txt"]⟩) :=
  (check_fatal_once remoteDenied 0 "a.txt" .undefined (some ⟨none, some 5, none⟩) World.init
    "AccessDenied" "denied" rfl (by decide) (by decide)).1

/-- C1, the code at `maxRetries = 3` with one timeout before a success (`k = 1`): the
claim asks for `min (3 + 1) (1 + 1) = 2` calls of `head` and a wait of
`RETRY_DELAY_BASE * 1` ms between them; the code calls `head` once, waits never, and
rejects with the `ReferenceError` of `retriesLeft`, which the `catch` block cannot
see. -/
theorem check_network_no_retry (fuel : Nat) :
    ∃ w : World,
      checkFileExistsWithRetry remoteFlaky (fuel + 1) "a.txt" .undefined
          (some ⟨none, some 3, none⟩) World.init =
        some (.error (.reference "retriesLeft"), w) ∧
      headCalls w.trace = 1 ∧ headCalls w.trace ≠ min (3 + 1) (1 + 1) ∧
      delays w.trace = [] ∧ delays w.trace ≠ [RETRY_DELAY_BASE * 1] := by
  refine ⟨⟨1, 0, [.head "a.txt"]⟩, ?_, ?_, ?_, ?_, ?_⟩
  · exact check_network remoteFlaky fuel "a.txt" .undefined _ World.init "ETIMEDOUT" "timeout"
      rfl (by decide)
  · decide
  · decide
  · decide
  · decide

/-- C6: when `head` succeeds, `uploadSingleFileWithRetry` resolves to
`success: true, skipped: true` and its trace gains the `head` call only, no `put`;
when `head` fails with `NoSuchKey` and the `put` that follows succeeds, it resolves to
`success: true, skipped: false` after exactly one `put`. -/
theorem upload_skip_or_put (remote : Remote) (fuel : Nat) (localFilePath ossFilePath : String)
    (rl : JsArg) (opt : Option Opt) (w : World) :
    (remote.head ossFilePath w.heads = .ok →
      uploadSingleFileWithRetry remote (fuel + 1) localFilePath ossFilePath rl opt w =
        some (.ok ⟨true, some true, ossFilePath, "文件已存在，已跳过"⟩,
          ⟨w.heads + 1, w.puts, w.trace ++ [.head ossFilePath]⟩) ∧
      putCalls (w.trace ++ [.head ossFilePath]) = putCalls w.trace) ∧
    (∀ message name : String,
      remote.head ossFilePath w.heads = .fail "NoSuchKey" message →
      remote.put ossFilePath localFilePath w.puts = .ok name →
      uploadSingleFileWithRetry remote (fuel + 1) localFilePath ossFilePath rl opt w =
        some (.ok ⟨true, some false, name, "上传成功"⟩,
          ⟨w.heads + 1, w.puts + 1,
            w.trace ++ [.head ossFilePath] ++ [.put ossFilePath localFilePath]⟩) ∧
      putCalls (w.trace ++ [.head ossFilePath] ++ [.put ossFilePath localFilePath]) =
        putCalls w.trace + 1) := by
  constructor
  · intro hh
    constructor
    · simp [uploadSingleFileWithRetry, checkFileExistsWithRetry, hh]
    · simp [putCalls, List.filter_append]
  · intro message name hh hp
    constructor
    · simp [uploadSingleFileWithRetry, checkFileExistsWithRetry, hh, hp, JsError.code]
    · simp [putCalls, List.filter_append]

/-- Witness of C6: `a.txt` is there and is skipped, `b/c.txt` is not and is put once. -/
theorem upload_skip_or_put_witness :
    (uploadSingleFileWithRetry remoteHasA 1 "d/a.txt" "a.txt" .undefined none World.init =
        some (.ok ⟨true, some true, "a.txt", "文件已存在，已跳过"⟩, ⟨1, 0, [.head "a.txt"]⟩) ∧
      putCalls ([] ++ [Event.head "a.txt"]) = putCalls []) ∧
    (uploadSingleFileWithRetry remoteHasA 1 "d/b/c.txt" "b/c.txt" .undefined none World.init =
        some (.ok ⟨true, some false, "b/c.txt", "上传成功"⟩,
          ⟨1, 1, [.head "b/c.txt", .put "b/c.txt" "d/b/c.txt"]⟩) ∧
      putCalls ([] ++ [Event.head "b/c.txt"] ++ [Event.put "b/c.txt" "d/b/c.txt"]) =
        putCalls [] + 1) :=
  ⟨(upload_skip_or_put remoteHasA 0 "d/a.txt" "a.txt" .undefined none World.init).1 rfl,
   (upload_skip_or_put remoteHasA 0 "d/b/c.txt" "b/c.txt" .undefined none World.init).2
     "missing" "b/c.txt" rfl rfl⟩

/-- A network error answered to `put` after `NoSuchKey`: the pipeline rejects with the
`ReferenceError` of the unbound `retriesLeft`. -/
theorem upload_put_network (remote : Remote) (fuel : Nat) (localFilePath ossFilePath : String)
    (rl : JsArg) (opt : Option Opt) (w : World) (m code message : String)
    (hh : remote.head ossFilePath w.heads = .fail "NoSuchKey" m)
    (hp : remote.put ossFilePath localFilePath w.puts = .fail code message)
    (hnet : code ∈ networkCodes) :
    uploadSingleFileWithRetry remote (fuel + 1) localFilePath ossFilePath rl opt w =
      some (.error (.reference "retriesLeft"),
        ⟨w.heads + 1, w.puts + 1,
          w.trace ++ [.head ossFilePath] ++ [.put ossFilePath localFilePath]⟩) := by
  have hn : isNetworkError (some code) = true := by
    simpa [isNetworkError] using hnet
  simp [uploadSingleFileWithRetry, checkFileExistsWithRetry, hh, hp, JsError.code,
    uploadCatch, hn, readVar_retriesLeft]

/-- C2, the code on the one-file list `a.txt` when `head` reports `NoSuchKey` and `put`
times out: `uploadSingleFileWithRetry` rejects (with the `ReferenceError` raised in
its `catch` block) instead of resolving to an outcome, and `uploadFilesConcurrently`,
once the loop is over and the pipeline has settled, has thrown with no result for the
file. -/
theorem upload_rejects_on_put_timeout (fuel : Nat) :
    uploadSingleFileWithRetry remotePutTimeout (fuel + 1) "d/a.txt" "a.txt" .undefined none
        World.init =
      some (.error (.reference "retriesLeft"),
        ⟨1, 1, [.head "a.txt", .put "a.txt" "d/a.txt"]⟩) ∧
    (uploadFilesConcurrently remotePutTimeout (fuel + 1) [⟨"d/a.txt", "a.txt"⟩] none
        [.resume, .resume, .advance 0, .settle 0]).mode = .thrown (.reference "retriesLeft") ∧
    (uploadFilesConcurrently remotePutTimeout (fuel + 1) [⟨"d/a.txt", "a.txt"⟩] none
        [.resume, .resume, .advance 0, .settle 0]).results = [] := by
  have h : uploadSingleFileWithRetry remotePutTimeout (fuel + 1) "d/a.txt" "a.txt" .undefined
      none World.init =
      some (.error (.reference "retriesLeft"),
        ⟨1, 1, [.head "a.txt", .put "a.txt" "d/a.txt"]⟩) :=
    upload_put_network remotePutTimeout fuel "d/a.txt" "a.txt" .undefined none
      World.init "missing" "ETIMEDOUT" "timeout" rfl rfl (by decide)
  refine ⟨h, ?_, ?_⟩
  · simp [uploadFilesConcurrently, step, resumeLoop, advanceTask, settleTask, Sched.init, h,
      firstRejected, concurrentLimitOf, CONCURRENT_LIMIT]
  · simp [uploadFilesConcurrently, step, resumeLoop, advanceTask, settleTask, Sched.init, h,
      firstRejected, concurrentLimitOf, CONCURRENT_LIMIT]

mutual
theorem collectAllFiles_eq (P : PathLib) (localDir ossBaseDir : String) :
    ∀ entries : List Entry, collectAllFiles P localDir ossBaseDir entries =
      (regularFiles entries).map (itemAt P localDir ossBaseDir)
  | [] => by simp [collectAllFiles, regularFiles]
  | entry :: rest => by
    simp only [collectAllFiles, regularFiles, List.map_append]
    rw [collectEntry_eq P localDir ossBaseDir entry, collectAllFiles_eq P localDir ossBaseDir rest]
theorem collectEntry_eq (P : PathLib) (localDir ossBaseDir : String) :
    ∀ entry : Entry, collectEntry P localDir ossBaseDir entry =
      (regularFilesOf entry).map (itemAt P localDir ossBaseDir)
  | .file name => by simp [collectEntry, regularFilesOf, itemAt]
  | .dir name children => by
    simp only [collectEntry, regularFilesOf, List.map_map]
    rw [collectAllFiles_eq P (P.join localDir name) (P.posixJoin ossBaseDir name) children]
    apply List.map_congr_left
    intro chain _
    simp [itemAt]
end

mutual
theorem regularFiles_head_mem :
    ∀ (entries : List Entry) (chain : List String), chain ∈ regularFiles entries →
      ∃ n t, chain = n :: t ∧ n ∈ entries.map Entry.name
  | [], chain, h => by simp [regularFiles] at h
  | entry :: rest, chain, h => by
    simp only [regularFiles, List.mem_append] at h
    rcases h with h | h
    · obtain ⟨t, ht⟩ := regularFilesOf_head entry chain h
      exact ⟨entry.name, t, ht, by simp⟩
    · obtain ⟨n, t, ht, hn⟩ := regularFiles_head_mem rest chain h
      exact ⟨n, t, ht, by simp only [List.map_cons]; exact List.mem_cons_of_mem _ hn⟩
theorem regularFilesOf_head :
    ∀ (entry : Entry) (chain : List String), chain ∈ regularFilesOf entry →
      ∃ t, chain = entry.name :: t
  | .file name, chain, h => by
    simp only [regularFilesOf, List.mem_singleton] at h
    exact ⟨[], by simp [Entry.name, h]⟩
  | .dir name children, chain, h => by
    simp only [regularFilesOf, List.mem_map] at h
    obtain ⟨t, _, ht⟩ := h
    exact ⟨t, by simp [Entry.name, ← ht]⟩
end

mutual
theorem regularFiles_nodup :
    ∀ entries : List Entry, distinctNames entries = true → (regularFiles entries).Nodup
  | [], _ => by simp [regularFiles]
  | entry :: rest, h => by
    simp only [distinctNames, Bool.and_eq_true, Bool.not_eq_true', List.contains_eq_any_beq,
      List.any_eq_false, beq_iff_eq] at h
    obtain ⟨⟨hname, hentry⟩, hrest⟩ := h
    simp only [regularFiles]
    refine List.Nodup.append (regularFilesOf_nodup entry hentry) (regularFiles_nodup rest hrest) ?_
    intro chain h1 h2
    obtain ⟨t, ht⟩ := regularFilesOf_head entry chain h1
    obtain ⟨n, t2, ht2, hn⟩ := regularFiles_head_mem rest chain h2
    rw [ht] at ht2
    injection ht2 with hhead _
    exact hname n hn hhead
theorem regularFilesOf_nodup :
    ∀ entry : Entry, distinctNamesIn entry = true → (regularFilesOf entry).Nodup
  | .file name, _ => by simp [regularFilesOf]
  | .dir name children, h => by
    simp only [distinctNamesIn] at h
    simp only [regularFilesOf]
    exact (regularFiles_nodup children h).map (fun a b hab => by injection hab)
end

theorem spliceTask_length (xs : List Nat) (t : Nat) :
    (spliceTask xs t).length = xs.length - 1 := by
  unfold spliceTask
  split
  · next h => rw [List.length_erase_of_mem h]
  · simp

theorem resumeLoop_inv (remote : Remote) (fuel limit : Nat) (fileList : List WorkItem)
    (s : Sched) (hinv : SchedInv limit s) (hmode : s.mode = .loop) :
    SchedInv limit (resumeLoop remote fuel limit fileList s) := by
  have hlt := hinv.2 hmode
  unfold resumeLoop
  split
  · dsimp only
    split
    · split
      · exact ⟨by simp only [List.length_append, List.length_singleton]; omega, by simp⟩
      · exact ⟨by simp only [List.length_append, List.length_singleton]; omega, by simp⟩
    · next hge =>
      simp only [List.length_append, List.length_singleton, ge_iff_le, not_le] at hge
      exact ⟨by simp only [List.length_append, List.length_singleton]; omega,
        fun _ => by simp only [List.length_append, List.length_singleton]; omega⟩
  · split
    · exact ⟨hinv.1, by simp⟩
    · split
      · exact ⟨hinv.1, by simp⟩
      · exact ⟨hinv.1, by simp⟩

theorem advanceTask_inv (limit : Nat) (t : Nat) (s : Sched) (hinv : SchedInv limit s) :
    SchedInv limit (advanceTask t s) := by
  unfold advanceTask
  split
  · exact hinv
  · exact hinv

theorem settleTask_inv (limit : Nat) (hpos : 0 < limit) (t : Nat) (s : Sched)
    (hinv : SchedInv limit s) : SchedInv limit (settleTask t s) := by
  have hle := hinv.1
  unfold settleTask
  split
  · split
    · dsimp only
      refine ⟨by rw [spliceTask_length]; omega, ?_⟩
      rw [spliceTask_length]
      cases hm : s.mode with
      | loop => intro _; have := hinv.2 hm; omega
      | awaitRace => intro _; omega
      | awaitAll =>
        by_cases he : spliceTask s.executing t = []
        · simp [he]
        · simp [he]
      | returned => simp
      | thrown e => simp
    · dsimp only
      refine ⟨hle, ?_⟩
      cases hm : s.mode with
      | loop => intro _; exact hinv.2 hm
      | awaitRace => simp
      | awaitAll => simp
      | returned => simp
      | thrown e => simp
    · exact hinv
  · exact hinv

theorem step_inv (remote : Remote) (fuel limit : Nat) (hpos : 0 < limit)
    (fileList : List WorkItem) (tick : Tick) (s : Sched) (hinv : SchedInv limit s) :
    SchedInv limit (step remote fuel limit fileList tick s) := by
  unfold step
  split
  · exact hinv
  · exact hinv
  · next hm => exact resumeLoop_inv remote fuel limit fileList s hinv hm
  · exact hinv
  · exact advanceTask_inv limit _ s hinv
  · exact settleTask_inv limit hpos _ s hinv

theorem foldl_step_inv (remote : Remote) (fuel limit : Nat) (hpos : 0 < limit)
    (fileList : List WorkItem) (ticks : List Tick) :
    ∀ s : Sched, SchedInv limit s →
      SchedInv limit (ticks.foldl (fun s tick => step remote fuel limit fileList tick s) s) := by
  induction ticks with
  | nil => intro s h; exact h
  | cons tick rest ih =>
    intro s h
    exact ih _ (step_inv remote fuel limit hpos fileList tick s h)

/-- C10: for every file list, every positive `concurrentLimit` and every interleaving
of loop iterations and pipeline settlements, the array `executing` never holds more
than `concurrentLimit` tasks: the bound holds in the state reached after any list of
ticks, hence at every point of every execution. -/
theorem executing_bounded (remote : Remote) (fuel : Nat) (fileList : List WorkItem)
    (opt : Option Opt) (ticks : List Tick) (hpos : 0 < concurrentLimitOf opt) :
    (uploadFilesConcurrently remote fuel fileList opt ticks).executing.length ≤
      concurrentLimitOf opt :=
  (foldl_step_inv remote fuel (concurrentLimitOf opt) hpos fileList ticks Sched.init
    ⟨Nat.zero_le _, fun _ => hpos⟩).1

/-- Witness of C10: three files, limit 2; after two dispatches the coroutine waits,
and the third file is dispatched only after a pipeline has settled. -/
theorem executing_bounded_witness :
    0 < concurrentLimitOf optLimit2 ∧
    (uploadFilesConcurrently remoteHasA 1 threeFiles optLimit2
        [.resume, .resume, .resume, .advance 1, .settle 1, .resume]).executing.length ≤
      concurrentLimitOf optLimit2 :=
  ⟨by decide, executing_bounded remoteHasA 1 threeFiles optLimit2
    [.resume, .resume, .resume, .advance 1, .settle 1, .resume] (by decide)⟩

theorem contains_iff_mem (l : List String) (a : String) : l.contains a = true ↔ a ∈ l :=
  List.elem_iff

theorem pruneLoggedIn_name (join : String → String → String) (log : List String)
    (level : Nat) (localPath ossPath : String) (entry : Entry) :
    (pruneLoggedIn join log level localPath ossPath entry).name = entry.name := by
  cases entry with
  | file name => simp [pruneLoggedIn, Entry.name]
  | dir name children =>
    simp only [pruneLoggedIn]
    split <;> rfl

mutual
theorem traverseCur_log_mono (env : Env) :
    ∀ (entries : List Entry) (localDir ossDir : String) (opt : Option Opt) (st : TravState)
      (x : String), x ∈ st.log →
      x ∈ (traverseCurDirectoryWithRetry env localDir ossDir opt entries st).1.log
  | [], _, _, _, st, x, hx => by simpa [traverseCurDirectoryWithRetry] using hx
  | entry :: rest, localDir, ossDir, opt, st, x, hx => by
    simp only [traverseCurDirectoryWithRetry]
    split
    · exact traverseCur_log_mono env rest localDir ossDir opt st x hx
    · have h1 := traverseCurEntry_log_mono env entry (env.paths.join localDir entry.name)
        (env.paths.join ossDir entry.name) opt st x hx
      split
      · next st1 h heq => rw [heq] at h1; exact h1
      · next st1 heq =>
        rw [heq] at h1
        exact traverseCur_log_mono env rest localDir ossDir opt _ x
          (List.mem_append_left _ h1)
theorem traverseCurEntry_log_mono (env : Env) :
    ∀ (entry : Entry) (localPath ossPath : String) (opt : Option Opt) (st : TravState)
      (x : String), x ∈ st.log →
      x ∈ (traverseCurEntry env localPath ossPath opt entry st).1.log
  | .file name, localPath, ossPath, opt, st, x, hx => by
    simp only [traverseCurEntry]
    split <;> exact hx
  | .dir name children, localPath, ossPath, opt, st, x, hx => by
    simp only [traverseCurEntry]
    split
    · exact traverseCur_log_mono env children localPath ossPath _ st x hx
    · exact hx
end

mutual
theorem traverseCur_prune (env : Env) (log0 : List String) :
    ∀ (entries : List Entry) (localDir ossDir : String) (opt : Option Opt) (st : TravState),
      (∀ x ∈ log0, x ∈ st.log) →
      traverseCurDirectoryWithRetry env localDir ossDir opt entries st =
        traverseCurDirectoryWithRetry env localDir ossDir opt
          (pruneLogged env.paths.join log0 (logLevelOf opt) localDir ossDir entries) st
  | [], _, _, _, _, _ => by simp [pruneLogged]
  | entry :: rest, localDir, ossDir, opt, st, hsub => by
    have ihr := traverseCur_prune env log0 rest localDir ossDir opt
    simp only [pruneLogged]
    by_cases h0 : log0.contains
        (logValOf (env.paths.join localDir entry.name) (env.paths.join ossDir entry.name)) = true
    · have hst : st.log.contains
          (logValOf (env.paths.join localDir entry.name) (env.paths.join ossDir entry.name))
            = true := by
        simp only [contains_iff_mem] at h0 ⊢
        exact hsub _ h0
      rw [if_pos h0]
      simp only [traverseCurDirectoryWithRetry, hst, if_true]
      exact ihr st hsub
    · rw [if_neg h0]
      simp only [traverseCurDirectoryWithRetry, pruneLoggedIn_name]
      split
      · exact ihr st hsub
      · rw [← traverseCurEntry_prune env log0 entry _ _ opt st hsub]
        have hmono := traverseCurEntry_log_mono env entry (env.paths.join localDir entry.name)
          (env.paths.join ossDir entry.name) opt st
        split
        · rfl
        · next st1 heq =>
          rw [heq] at hmono
          exact ihr _ (fun x hx => List.mem_append_left _ (hmono x (hsub x hx)))
theorem traverseCurEntry_prune (env : Env) (log0 : List String) :
    ∀ (entry : Entry) (localPath ossPath : String) (opt : Option Opt) (st : TravState),
      (∀ x ∈ log0, x ∈ st.log) →
      traverseCurEntry env localPath ossPath opt entry st =
        traverseCurEntry env localPath ossPath opt
          (pruneLoggedIn env.paths.join log0 (logLevelOf opt) localPath ossPath entry) st
  | .file name, _, _, _, _, _ => by simp [pruneLoggedIn]
  | .dir name children, localPath, ossPath, opt, st, hsub => by
    simp only [pruneLoggedIn]
    by_cases hl : logLevelOf opt ≥ 2
    · rw [if_pos hl]
      simp only [traverseCurEntry, if_pos hl]
      have := traverseCur_prune env log0 children localPath ossPath
        (some (withLogLevel opt (logLevelOf opt - 1))) st hsub
      simpa [logLevelOf, withLogLevel] using this
    · rw [if_neg hl]
end

theorem traverseCur_all_logged (env : Env) (localDir ossDir : String) (opt : Option Opt)
    (st : TravState) :
    ∀ entries : List Entry,
      (∀ e ∈ entries, logValOf (env.paths.join localDir e.name)
        (env.paths.join ossDir e.name) ∈ st.log) →
      traverseCurDirectoryWithRetry env localDir ossDir opt entries st = (st, none) := by
  intro entries
  induction entries with
  | nil => intro _; simp [traverseCurDirectoryWithRetry]
  | cons entry rest ih =>
    intro h
    have he := (contains_iff_mem _ _).2 (h entry (List.mem_cons_self _ _))
    simp only [traverseCurDirectoryWithRetry, he, if_true]
    exact ih (fun e hmem => h e (List.mem_cons_of_mem _ hmem))

/-- An error of `head` that is neither `NoSuchKey` nor a network error: the pipeline
resolves to the failure outcome after that one call. -/
theorem upload_head_fatal (remote : Remote) (fuel : Nat) (localFilePath ossFilePath : String)
    (rl : JsArg) (opt : Option Opt) (w : World) (code message : String)
    (hresp : remote.head ossFilePath w.heads = .fail code message)
    (hns : code ≠ "NoSuchKey") (hnet : code ∉ networkCodes) :
    uploadSingleFileWithRetry remote (fuel + 1) localFilePath ossFilePath rl opt w =
      some (.ok ⟨false, none, ossFilePath, "上传最终失败：" ++ message⟩,
        ⟨w.heads + 1, w.puts, w.trace ++ [.head ossFilePath]⟩) := by
  have hn : isNetworkError (some code) = false := by
    simpa [isNetworkError] using hnet
  simp [uploadSingleFileWithRetry, checkFileExistsWithRetry, hresp, JsError.code, hns, hn,
    uploadCatch, JsError.message]

/-- C3 as stated fails: with `logLevel: 1` and a log that lists `sub/f.txt`, the file
`f.txt` of the directory `sub` is dispatched all the same; the run issues a `head` and
a `put` for it. -/
theorem logged_file_below_logLevel_dispatched :
    1 ≤ logLevelOf optLevel1 ∧
    (⟨"d/sub/f.txt", "o/sub/f.txt"⟩ : WorkItem) ∈ collectAllFiles posixLib "d" "o" treeSub ∧
    logValOf "d/sub/f.txt" "o/sub/f.txt" ∈ logDeep ∧
    Event.head "o/sub/f.txt" ∈
      (traverseCurDirectoryWithRetry envEmpty "d" "o" optLevel1 treeSub ⟨logDeep, []⟩).1.trace ∧
    Event.put "o/sub/f.txt" "d/sub/f.txt" ∈
      (traverseCurDirectoryWithRetry envEmpty "d" "o" optLevel1 treeSub ⟨logDeep, []⟩).1.trace := by
  decide

/-- C4, the code on the directory holding the one file `a.txt` when `head` is refused
with `AccessDenied` and the log is empty: the pipeline of the file ends in the outcome
`success: false`, and the identifier of the file is in the log after the run. -/
theorem failed_file_is_logged (fuel : Nat) :
    uploadSingleFileWithRetry remoteDenied (fuel + 1) "d/a.txt" "o/a.txt" (optAsArg none) none
        World.init =
      some (.ok ⟨false, none, "o/a.txt", "上传最终失败：denied"⟩, ⟨1, 0, [.head "o/a.txt"]⟩) ∧
    traverseCurDirectoryWithRetry (envDenied (fuel + 1)) "d" "o" none [.file "a.txt"] ⟨[], []⟩ =
      (⟨[logValOf "d/a.txt" "o/a.txt"], [.head "o/a.txt"]⟩, none) := by
  have h := upload_head_fatal remoteDenied fuel "d/a.txt" "o/a.txt" (optAsArg none) none
    World.init "AccessDenied" "denied" rfl (by decide) (by decide)
  refine ⟨h, ?_⟩
  have h2 : uploadSingleFileWithRetry (envDenied (fuel + 1)).remote (envDenied (fuel + 1)).fuel
      (posixLib.join "d" "a.txt") (posixLib.join "o" "a.txt") (optAsArg none) none World.init =
      some (.ok ⟨false, none, "o/a.txt", "上传最终失败：denied"⟩, ⟨1, 0, [.head "o/a.txt"]⟩) := h
  simp only [traverseCurDirectoryWithRetry, traverseCurEntry, envDenied, Entry.name] at h2 ⊢
  rw [if_neg (by decide), h2]
  rfl

theorem logValOf_data (localPath ossPath : String) :
    (logValOf localPath ossPath).data =
      localPath.data ++ ([hyphen, hyphen, hyphen] ++ ossPath.data) := by
  simp only [logValOf, String.data_append, List.append_assoc]
  rfl

/-! ## Dispatch of the files of a directory handed to `traverseDirectoryWithRetry` -/

/-- With budget left, `checkFileExistsWithRetry` settles after one `head` call. -/
theorem check_total (remote : Remote) (fuel : Nat) (key : String) (rl : JsArg)
    (opt : Option Opt) (w : World) :
    ∃ r, checkFileExistsWithRetry remote (fuel + 1) key rl opt w =
      some (r, ⟨w.heads + 1, w.puts, w.trace ++ [.head key]⟩) := by
  cases hh : remote.head key w.heads with
  | ok => exact ⟨.ok true, by simp [checkFileExistsWithRetry, hh]⟩
  | fail code message =>
    by_cases hns : code = "NoSuchKey"
    · exact ⟨.ok false, by simp [checkFileExistsWithRetry, hh, JsError.code, hns]⟩
    · cases hn : isNetworkError (some code) with
      | true =>
        exact ⟨.error (.reference "retriesLeft"), by
          simp [checkFileExistsWithRetry, hh, JsError.code, hns, hn, readVar_retriesLeft]⟩
      | false =>
        exact ⟨.error (.remote code message), by
          simp [checkFileExistsWithRetry, hh, JsError.code, hns, hn]⟩

/-- The `catch` block of `uploadSingleFileWithRetry` settles without a further event. -/
theorem uploadCatch_total (key : String) (e : JsError) (w : World)
    (retry : Int → World → Option (Except JsError UploadResult × World)) :
    ∃ r, uploadCatch key e w retry = some (r, w) := by
  cases hn : isNetworkError e.code with
  | true => exact ⟨.error (.reference "retriesLeft"), by simp [uploadCatch, hn, readVar_retriesLeft]⟩
  | false =>
    exact ⟨.ok ⟨false, none, key, "上传最终失败：" ++ e.message⟩, by simp [uploadCatch, hn]⟩

/-- With budget left, a pipeline settles and its first event is the `head` call. -/
theorem upload_first_event (remote : Remote) (fuel : Nat) (localFilePath key : String)
    (rl : JsArg) (opt : Option Opt) :
    ∃ r w, uploadSingleFileWithRetry remote (fuel + 1) localFilePath key rl opt World.init =
      some (r, w) ∧ w.trace.take 1 = [Event.head key] := by
  obtain ⟨rc, hc⟩ := check_total remote fuel key .undefined none World.init
  simp only [uploadSingleFileWithRetry, hc]
  match rc with
  | .error e =>
    obtain ⟨r, hr⟩ := uploadCatch_total key e ⟨World.init.heads + 1, World.init.puts,
      World.init.trace ++ [.head key]⟩ (fun n w2 =>
        uploadSingleFileWithRetry remote fuel localFilePath key (.number n) none w2)
    exact ⟨r, _, hr, rfl⟩
  | .ok true => exact ⟨_, _, rfl, rfl⟩
  | .ok false =>
    dsimp only
    cases hp : remote.put key localFilePath World.init.puts with
    | ok name => exact ⟨_, _, rfl, rfl⟩
    | fail code message =>
      obtain ⟨r, hr⟩ := uploadCatch_total key (.remote code message)
        ⟨World.init.heads + 1, World.init.puts + 1,
          World.init.trace ++ [.head key] ++ [.put key localFilePath]⟩ (fun n w2 =>
          uploadSingleFileWithRetry remote fuel localFilePath key (.number n) none w2)
      exact ⟨r, _, hr, rfl⟩

theorem resumeLoop_dispatch (remote : Remote) (fuel limit : Nat) (fileList : List WorkItem)
    (s : Sched) (hinv : DispatchInv fileList s) :
    DispatchInv fileList (resumeLoop remote (fuel + 1) limit fileList s) := by
  unfold resumeLoop
  split
  · next file hfile =>
    obtain ⟨r, w, hrun, htake⟩ := upload_first_event remote fuel file.localPath file.ossPath
      .undefined none
    have hheads : ∀ (i : Nat) (f : WorkItem), i < s.next + 1 → fileList.get? i = some f →
        Event.head f.ossPath ∈ s.trace ++ [Event.head file.ossPath] := by
      intro i f hi hf
      by_cases hlt : i < s.next
      · exact List.mem_append_left _ (hinv.1 i f hlt hf)
      · have hi2 : i = s.next := by omega
        subst hi2
        rw [hfile] at hf
        injection hf with hf
        subst hf
        simp
    simp only [hrun, htake]
    split
    · split
      · exact ⟨hheads, by simp⟩
      · exact ⟨hheads, by simp⟩
    · exact ⟨hheads, by simp⟩
  · next hnone =>
    have hlen : fileList.length ≤ s.next := by
      simpa [List.get?_eq_none] using hnone
    split
    · exact ⟨hinv.1, by simp⟩
    · split
      · exact ⟨hinv.1, fun _ => hlen⟩
      · exact ⟨hinv.1, fun _ => hlen⟩

theorem advanceTask_dispatch (fileList : List WorkItem) (t : Nat) (s : Sched)
    (hinv : DispatchInv fileList s) : DispatchInv fileList (advanceTask t s) := by
  unfold advanceTask
  split
  · exact ⟨fun i f hi hf => List.mem_append_left _ (hinv.1 i f hi hf), hinv.2⟩
  · exact hinv

theorem settleTask_dispatch (fileList : List WorkItem) (t : Nat) (s : Sched)
    (hinv : DispatchInv fileList s) : DispatchInv fileList (settleTask t s) := by
  unfold settleTask
  split
  · split
    · dsimp only
      refine ⟨hinv.1, ?_⟩
      cases hm : s.mode with
      | loop => simp
      | awaitRace => simp
      | awaitAll => intro _; exact hinv.2 (Or.inr hm)
      | returned => intro _; exact hinv.2 (Or.inl hm)
      | thrown e => simp
    · dsimp only
      refine ⟨hinv.1, ?_⟩
      cases hm : s.mode with
      | loop => simp
      | awaitRace => simp
      | awaitAll => simp
      | returned => intro _; exact hinv.2 (Or.inl hm)
      | thrown e => simp
    · exact hinv
  · exact hinv

theorem step_dispatch (remote : Remote) (fuel limit : Nat) (fileList : List WorkItem)
    (tick : Tick) (s : Sched) (hinv : DispatchInv fileList s) :
    DispatchInv fileList (step remote (fuel + 1) limit fileList tick s) := by
  unfold step
  split
  · exact hinv
  · exact hinv
  · exact resumeLoop_dispatch remote fuel limit fileList s hinv
  · exact hinv
  · exact advanceTask_dispatch fileList _ s hinv
  · exact settleTask_dispatch fileList _ s hinv

theorem foldl_step_dispatch (remote : Remote) (fuel limit : Nat) (fileList : List WorkItem)
    (ticks : List Tick) :
    ∀ s : Sched, DispatchInv fileList s →
      DispatchInv fileList
        (ticks.foldl (fun s tick => step remote (fuel + 1) limit fileList tick s) s) := by
  induction ticks with
  | nil => intro s h; exact h
  | cons tick rest ih =>
    intro s h
    exact ih _ (step_dispatch remote fuel limit fileList tick s h)

/-- When `uploadFilesConcurrently` has returned, the `head` call of every file of the
list has been issued. -/
theorem returned_all_heads (remote : Remote) (fuel : Nat) (fileList : List WorkItem)
    (opt : Option Opt) (ticks : List Tick)
    (hret : (uploadFilesConcurrently remote (fuel + 1) fileList opt ticks).mode = .returned)
    (f : WorkItem) (hf : f ∈ fileList) :
    Event.head f.ossPath ∈ (uploadFilesConcurrently remote (fuel + 1) fileList opt ticks).trace := by
  have hinv := foldl_step_dispatch remote fuel (concurrentLimitOf opt) fileList ticks Sched.init
    ⟨fun i f hi _ => absurd hi (Nat.not_lt_zero i), by simp [Sched.init]⟩
  obtain ⟨i, hi, hget⟩ := List.mem_iff_getElem.mp hf
  have hlen := hinv.2 (Or.inl hret)
  exact hinv.1 i f (by omega)
    (by rw [List.get?_eq_getElem?, List.getElem?_eq_getElem hi, hget])

mutual
theorem traverseCur_trace_mono (env : Env) :
    ∀ (entries : List Entry) (localDir ossDir : String) (opt : Option Opt) (st : TravState)
      (x : Event), x ∈ st.trace →
      x ∈ (traverseCurDirectoryWithRetry env localDir ossDir opt entries st).1.trace
  | [], _, _, _, st, x, hx => by simpa [traverseCurDirectoryWithRetry] using hx
  | entry :: rest, localDir, ossDir, opt, st, x, hx => by
    simp only [traverseCurDirectoryWithRetry]
    split
    · exact traverseCur_trace_mono env rest localDir ossDir opt st x hx
    · have h1 := traverseCurEntry_trace_mono env entry (env.paths.join localDir entry.name)
        (env.paths.join ossDir entry.name) opt st x hx
      split
      · next st1 h heq => rw [heq] at h1; exact h1
      · next st1 heq =>
        rw [heq] at h1
        exact traverseCur_trace_mono env rest localDir ossDir opt _ x h1
theorem traverseCurEntry_trace_mono (env : Env) :
    ∀ (entry : Entry) (localPath ossPath : String) (opt : Option Opt) (st : TravState)
      (x : Event), x ∈ st.trace →
      x ∈ (traverseCurEntry env localPath ossPath opt entry st).1.trace
  | .file name, localPath, ossPath, opt, st, x, hx => by
    simp only [traverseCurEntry]
    split
    · exact hx
    · exact List.mem_append_left _ hx
    · exact List.mem_append_left _ hx
  | .dir name children, localPath, ossPath, opt, st, x, hx => by
    simp only [traverseCurEntry]
    split
    · exact traverseCur_trace_mono env children localPath ossPath _ st x hx
    · exact List.mem_append_left _ hx
end

/-- Below `logLevel` 2 the handling of one entry leaves the log as it is. -/
theorem traverseCurEntry_log_eq (env : Env) (localPath ossPath : String) (opt : Option Opt)
    (hlevel : logLevelOf opt < 2) (entry : Entry) (st : TravState) :
    (traverseCurEntry env localPath ossPath opt entry st).1.log = st.log := by
  cases entry with
  | file name =>
    simp only [traverseCurEntry]
    split <;> rfl
  | dir name children =>
    simp only [traverseCurEntry, if_neg (Nat.not_le.mpr hlevel)]

/-- Below `logLevel` 2, a directory that is handled without halt has had the `head`
call of every file below it issued, whatever the log holds. -/
theorem traverseCurEntry_dir_heads (env : Env) (localPath ossPath : String) (opt : Option Opt)
    (hlevel : logLevelOf opt < 2) (hfuel : 0 < env.fuel) (name : String)
    (children : List Entry) (st : TravState)
    (hrun : (traverseCurEntry env localPath ossPath opt (.dir name children) st).2 = none)
    (item : WorkItem) (hitem : item ∈ collectAllFiles env.paths localPath ossPath children) :
    Event.head item.ossPath ∈
      (traverseCurEntry env localPath ossPath opt (.dir name children) st).1.trace := by
  obtain ⟨k, hk⟩ : ∃ k, env.fuel = k + 1 := ⟨env.fuel - 1, by omega⟩
  simp only [traverseCurEntry, if_neg (Nat.not_le.mpr hlevel), traverseDirectoryWithRetry,
    hk] at hrun ⊢
  apply List.mem_append_right
  have hret : (uploadFilesConcurrently env.remote (k + 1)
      (collectAllFiles env.paths localPath ossPath children) opt
      (env.schedule (collectAllFiles env.paths localPath ossPath children))).mode = .returned := by
    revert hrun
    split <;> simp_all
  have hh := returned_all_heads env.remote k _ opt _ hret item hitem
  revert hh
  split <;> exact id

/-- Below `logLevel` 2: in a run that ends without halt, a directory entry whose
identifier is not in the log has had the `head` call of every file below it issued,
whatever else the log holds. -/
theorem traverseCur_dir_heads (env : Env) (localDir ossDir : String) (opt : Option Opt)
    (hlevel : logLevelOf opt < 2) (hfuel : 0 < env.fuel) (name : String)
    (children : List Entry) :
    ∀ (entries : List Entry) (st : TravState),
      (entries.map (entryLogVal env localDir ossDir)).Nodup →
      Entry.dir name children ∈ entries →
      entryLogVal env localDir ossDir (.dir name children) ∉ st.log →
      (traverseCurDirectoryWithRetry env localDir ossDir opt entries st).2 = none →
      ∀ item ∈ collectAllFiles env.paths (env.paths.join localDir name)
          (env.paths.join ossDir name) children,
        Event.head item.ossPath ∈
          (traverseCurDirectoryWithRetry env localDir ossDir opt entries st).1.trace := by
  intro entries
  induction entries with
  | nil => intro st _ hmem; simp at hmem
  | cons x rest ih =>
    intro st hnodup hmem hnot hrun item hitem
    rw [List.map_cons, List.nodup_cons] at hnodup
    simp only [traverseCurDirectoryWithRetry] at hrun ⊢
    by_cases hx : st.log.contains (logValOf (env.paths.join localDir x.name)
        (env.paths.join ossDir x.name)) = true
    · rw [if_pos hx] at hrun ⊢
      rcases List.mem_cons.mp hmem with heq | hrest
      · exfalso
        apply hnot
        rw [heq]
        exact (contains_iff_mem _ _).1 hx
      · exact ih st hnodup.2 hrest hnot hrun item hitem
    · rw [if_neg hx] at hrun ⊢
      have hlog := traverseCurEntry_log_eq env (env.paths.join localDir x.name)
        (env.paths.join ossDir x.name) opt hlevel x st
      cases hent : traverseCurEntry env (env.paths.join localDir x.name)
          (env.paths.join ossDir x.name) opt x st with
      | mk st1 halt =>
        rw [hent] at hrun hlog
        cases halt with
        | some h => simp at hrun
        | none =>
          dsimp only at hrun hlog ⊢
          rcases List.mem_cons.mp hmem with heq | hrest
          · apply traverseCur_trace_mono
            have hd := traverseCurEntry_dir_heads env (env.paths.join localDir name)
              (env.paths.join ossDir name) opt hlevel hfuel name children st
            rw [← heq] at hent
            simp only [Entry.name] at hent
            rw [hent] at hd
            exact hd rfl item hitem
          · refine ih _ hnodup.2 hrest ?_ hrun item hitem
            intro hin
            rcases List.mem_append.mp hin with h1 | h1
            · rw [hlog] at h1
              exact hnot h1
            · rw [List.mem_singleton] at h1
              apply hnodup.1
              have : entryLogVal env localDir ossDir x =
                  entryLogVal env localDir ossDir (.dir name children) := h1.symm
              rw [this]
              exact List.mem_map_of_mem _ hrest

/-- C3 as amended: a run of `traverseCurDirectoryWithRetry` is the run on the tree
without the entries of its first `logLevel` levels (of the first level when `logLevel`
is below 2) whose identifier is in the log: for such an entry, and for all below it,
nothing is dispatched and no remote call is made; when every entry of the directory is
in the log the run changes neither the log nor the trace; and below `logLevel` 2 the
files under a directory entry are dispatched without a look at the log: in a run that
ends without halt on entries with pairwise different identifiers, a directory whose
own identifier is not in the log has the `head` call of every file below it issued,
whatever else the log holds. -/
theorem traverseCur_skips_logged (env : Env) (localDir ossDir : String) (opt : Option Opt)
    (entries : List Entry) (st : TravState) :
    traverseCurDirectoryWithRetry env localDir ossDir opt entries st =
      traverseCurDirectoryWithRetry env localDir ossDir opt
        (pruneLogged env.paths.join st.log (logLevelOf opt) localDir ossDir entries) st ∧
    ((∀ e ∈ entries, logValOf (env.paths.join localDir e.name)
        (env.paths.join ossDir e.name) ∈ st.log) →
      traverseCurDirectoryWithRetry env localDir ossDir opt entries st = (st, none)) ∧
    (∀ (name : String) (children : List Entry),
      logLevelOf opt < 2 → 0 < env.fuel →
      (entries.map (entryLogVal env localDir ossDir)).Nodup →
      Entry.dir name children ∈ entries →
      entryLogVal env localDir ossDir (.dir name children) ∉ st.log →
      (traverseCurDirectoryWithRetry env localDir ossDir opt entries st).2 = none →
      ∀ item ∈ collectAllFiles env.paths (env.paths.join localDir name)
          (env.paths.join ossDir name) children,
        Event.head item.ossPath ∈
          (traverseCurDirectoryWithRetry env localDir ossDir opt entries st).1.trace) :=
  ⟨traverseCur_prune env st.log entries localDir ossDir opt st (fun _ h => h),
   traverseCur_all_logged env localDir ossDir opt st entries,
   fun name children hlevel hfuel hnodup hmem hnot hrun =>
     traverseCur_dir_heads env localDir ossDir opt hlevel hfuel name children entries st
       hnodup hmem hnot hrun⟩

/-- Witness of the amended C3: with `logLevel: 2` the logged file `sub/f.txt` is
pruned; with both entries of `treeAB` in the log nothing is done; and with
`logLevel: 1` the file `sub/f.txt`, though in the log, has its `head` call issued. -/
theorem traverseCur_skips_logged_witness :
    traverseCurDirectoryWithRetry envEmpty "d" "o" optLevel2 treeSub ⟨logDeep, []⟩ =
      traverseCurDirectoryWithRetry envEmpty "d" "o" optLevel2 [.dir "sub" []] ⟨logDeep, []⟩ ∧
    traverseCurDirectoryWithRetry envEmpty "d" "o" optLevel1 treeAB ⟨logTop, []⟩ =
      (⟨logTop, []⟩, none) ∧
    (logValOf "d/sub/f.txt" "o/sub/f.txt" ∈ logDeep ∧
      Event.head "o/sub/f.txt" ∈
        (traverseCurDirectoryWithRetry envEmpty "d" "o" optLevel1 treeSub
          ⟨logDeep, []⟩).1.trace) :=
  ⟨(traverseCur_skips_logged envEmpty "d" "o" optLevel2 treeSub ⟨logDeep, []⟩).1,
   (traverseCur_skips_logged envEmpty "d" "o" optLevel1 treeAB ⟨logTop, []⟩).2.1 (by decide),
   by decide,
   (traverseCur_skips_logged envEmpty "d" "o" optLevel1 treeSub ⟨logDeep, []⟩).2.2
     "sub" [.file "f.txt"] (by decide) (by decide) (by decide) (List.mem_singleton.mpr rfl)
     (by decide) (by decide) ⟨"d/sub/f.txt", "o/sub/f.txt"⟩ (by decide)⟩

/-! ## No local path is emitted twice -/

/-- Under `JoinRegular`, different chains of names lead to different paths. -/
theorem foldl_join_injective (join : String → String → String) (root : String)
    (names : List String) (hreg : JoinRegular join root names) :
    ∀ c c' : List String, (∀ n ∈ c, n ∈ names) → (∀ n ∈ c', n ∈ names) →
      c.foldl join root = c'.foldl join root → c = c' := by
  intro c
  induction c using List.reverseRecOn with
  | nil =>
    intro c' _ hc' heq
    rcases List.eq_nil_or_concat c' with h | ⟨L, b, h⟩
    · exact h.symm
    · subst h
      rw [List.concat_eq_append] at hc' heq
      rw [List.foldl_append] at heq
      exact absurd heq.symm (hreg.2 L b (fun n hn => hc' n (List.mem_append_left _ hn))
        (hc' b (by simp)))
  | append_singleton L b ih =>
    intro c' hc hc' heq
    rcases List.eq_nil_or_concat c' with h | ⟨L', b', h⟩
    · subst h
      rw [List.foldl_append] at heq
      exact absurd heq (hreg.2 L b (fun n hn => hc n (List.mem_append_left _ hn))
        (hc b (by simp)))
    · subst h
      rw [List.concat_eq_append] at hc' heq ⊢
      rw [List.foldl_append, List.foldl_append] at heq
      have hL : ∀ n ∈ L, n ∈ names := fun n hn => hc n (List.mem_append_left _ hn)
      have hL' : ∀ n ∈ L', n ∈ names := fun n hn => hc' n (List.mem_append_left _ hn)
      obtain ⟨h1, h2⟩ := hreg.1 L L' b b' hL hL' (hc b (by simp)) (hc' b' (by simp)) heq
      rw [ih L' hL hL' h1, h2]

mutual
theorem regularFiles_names :
    ∀ (entries : List Entry) (chain : List String), chain ∈ regularFiles entries →
      ∀ n ∈ chain, n ∈ entryNames entries
  | [], chain, h => by simp [regularFiles] at h
  | entry :: rest, chain, h => by
    simp only [regularFiles, List.mem_append] at h
    intro n hn
    simp only [entryNames, List.mem_append]
    rcases h with h | h
    · exact Or.inl (regularFilesOf_names entry chain h n hn)
    · exact Or.inr (regularFiles_names rest chain h n hn)
theorem regularFilesOf_names :
    ∀ (entry : Entry) (chain : List String), chain ∈ regularFilesOf entry →
      ∀ n ∈ chain, n ∈ entryNamesOf entry
  | .file name, chain, h => by
    simp only [regularFilesOf, List.mem_singleton] at h
    intro n hn
    rw [h] at hn
    simpa [entryNamesOf] using hn
  | .dir name children, chain, h => by
    simp only [regularFilesOf, List.mem_map] at h
    obtain ⟨t, ht, hc⟩ := h
    intro n hn
    rw [← hc] at hn
    simp only [entryNamesOf]
    rcases List.mem_cons.mp hn with h1 | h1
    · rw [h1]; exact List.mem_cons_self _ _
    · exact List.mem_cons_of_mem _ (regularFiles_names children t ht n h1)
end

/-- The emitted local paths are pairwise different when sibling entries have different
names and `path.join` is regular on the names of the tree. -/
theorem collectAllFiles_localPath_nodup (P : PathLib) (localDir ossBaseDir : String)
    (entries : List Entry) (hnames : distinctNames entries = true)
    (hreg : JoinRegular P.join localDir (entryNames entries)) :
    ((collectAllFiles P localDir ossBaseDir entries).map WorkItem.localPath).Nodup := by
  have hmap : (collectAllFiles P localDir ossBaseDir entries).map WorkItem.localPath =
      (regularFiles entries).map (fun chain => chain.foldl P.join localDir) := by
    rw [collectAllFiles_eq, List.map_map]
    rfl
  rw [hmap]
  refine List.Nodup.map_on ?_ (regularFiles_nodup entries hnames)
  intro c hc c' hc' heq
  exact foldl_join_injective P.join localDir (entryNames entries) hreg c c'
    (regularFiles_names entries c hc) (regularFiles_names entries c' hc') heq

theorem posixLib_join_data (a b : String) :
    (posixLib.join a b).data = a.data ++ ([slash] ++ b.data) := by
  simp only [posixLib, String.data_append, List.append_assoc]
  rfl

/-- On names without slash, joining with a slash is injective in both arguments. -/
theorem posixLib_join_injective (a a' b b' : String) (hb : slash ∉ b.data)
    (hb' : slash ∉ b'.data) (heq : posixLib.join a b = posixLib.join a' b') :
    a = a' ∧ b = b' := by
  have hd : (posixLib.join a b).data = (posixLib.join a' b').data := by rw [heq]
  rw [posixLib_join_data, posixLib_join_data, List.append_eq_append_iff] at hd
  rcases hd with ⟨t, ha, ht⟩ | ⟨t, ha, ht⟩
  · cases t with
    | nil =>
      simp only [List.append_nil, List.nil_append, List.cons_append, List.cons.injEq,
        true_and] at ha ht
      exact ⟨String.ext ha.symm, String.ext ht⟩
    | cons x t' =>
      simp only [List.cons_append, List.nil_append, List.cons.injEq] at ht
      exact absurd (by rw [ht.2]; simp) hb
  · cases t with
    | nil =>
      simp only [List.append_nil, List.nil_append, List.cons_append, List.cons.injEq,
        true_and] at ha ht
      exact ⟨String.ext ha, String.ext ht.symm⟩
    | cons x t' =>
      simp only [List.cons_append, List.nil_append, List.cons.injEq] at ht
      exact absurd (by rw [ht.2]; simp) hb'

theorem posixLib_join_length (a b : String) :
    (posixLib.join a b).length = a.length + 1 + b.length := by
  show (a ++ "/" ++ b).length = a.length + 1 + b.length
  rw [String.length_append, String.length_append]
  rfl

theorem posixLib_foldl_length (c : List String) :
    ∀ root : String, root.length ≤ (c.foldl posixLib.join root).length := by
  induction c with
  | nil => intro root; exact Nat.le_refl _
  | cons n c ih =>
    intro root
    refine Nat.le_trans ?_ (ih (posixLib.join root n))
    rw [posixLib_join_length]
    omega

/-- The POSIX path library is regular on names without slash. -/
theorem posixLib_regular (root : String) (names : List String)
    (hplain : ∀ n ∈ names, slash ∉ n.data) : JoinRegular posixLib.join root names := by
  constructor
  · intro c c' b b' _ _ hb hb' heq
    exact posixLib_join_injective _ _ b b' (hplain b hb) (hplain b' hb') heq
  · intro c b _ _ heq
    have h1 := posixLib_foldl_length c root
    have h2 : (posixLib.join (c.foldl posixLib.join root) b).length = root.length := by
      rw [heq]
    rw [posixLib_join_length] at h2
    omega

/-- C5: `collectAllFiles` emits, in depth-first directory-entry order, exactly the
items of the regular files of the tree and nothing for a directory: item `i` is the
one of the `i`-th regular file, its `localPath` the names of the chain joined on to
`localDir`.  When sibling entries have different names no regular file occurs twice,
and when moreover `path.join` is regular on the names of the tree no local path is
emitted twice: every regular file has exactly one item, and the items of different
files have different local paths. -/
theorem collectAllFiles_regular_files (P : PathLib) (localDir ossBaseDir : String)
    (entries : List Entry) :
    collectAllFiles P localDir ossBaseDir entries =
      (regularFiles entries).map (itemAt P localDir ossBaseDir) ∧
    (collectAllFiles P localDir ossBaseDir entries).map WorkItem.localPath =
      (regularFiles entries).map (fun chain => chain.foldl P.join localDir) ∧
    (collectAllFiles P localDir ossBaseDir entries).length = (regularFiles entries).length ∧
    (distinctNames entries = true → (regularFiles entries).Nodup) ∧
    (distinctNames entries = true → JoinRegular P.join localDir (entryNames entries) →
      ((collectAllFiles P localDir ossBaseDir entries).map WorkItem.localPath).Nodup) := by
  refine ⟨collectAllFiles_eq P localDir ossBaseDir entries, ?_, ?_, regularFiles_nodup entries,
    collectAllFiles_localPath_nodup P localDir ossBaseDir entries⟩
  · rw [collectAllFiles_eq, List.map_map]
    rfl
  · rw [collectAllFiles_eq, List.length_map]

/-- Witness of C5 on the tree `a.txt`, `b/c.txt`. -/
theorem collectAllFiles_regular_files_witness :
    collectAllFiles posixLib "d" "o" treeAB =
      [⟨"d/a.txt", "o/a.txt"⟩, ⟨"d/b/c.txt", "o/b/c.txt"⟩] ∧
    (regularFiles treeAB).Nodup ∧
    ((collectAllFiles posixLib "d" "o" treeAB).map WorkItem.localPath).Nodup :=
  ⟨(collectAllFiles_regular_files posixLib "d" "o" treeAB).1.trans (by decide),
   (collectAllFiles_regular_files posixLib "d" "o" treeAB).2.2.2.1 (by decide),
   (collectAllFiles_regular_files posixLib "d" "o" treeAB).2.2.2.2 (by decide)
     (posixLib_regular "d" (entryNames treeAB) (by decide))⟩

/-! ## The identifier of an entry -/

/-- Two occurrences of the separator, the second starting `a.length` characters after
the first: they coincide, or they overlap (then `a` is one or two hyphens and what
follows the first occurrence is `a` and what follows the second), or `a` begins with
the separator. -/
theorem separator_overlap (a o1 o2 : List Char)
    (h : [hyphen, hyphen, hyphen] ++ o1 = a ++ ([hyphen, hyphen, hyphen] ++ o2)) :
    (a = [] ∧ o1 = o2) ∨
    (a ≠ [] ∧ (∀ ch ∈ a, ch = hyphen) ∧ o1 = a ++ o2) ∨
    (∃ t, a = [hyphen, hyphen, hyphen] ++ t) := by
  match a, h with
  | [], h => exact Or.inl ⟨rfl, by simpa using h⟩
  | [x], h =>
    simp only [List.cons_append, List.nil_append, List.cons.injEq] at h
    obtain ⟨hx, _, _, ho⟩ := h
    exact Or.inr (Or.inl ⟨by simp, by simp [← hx], by simp [ho, ← hx]⟩)
  | [x, y], h =>
    simp only [List.cons_append, List.nil_append, List.cons.injEq] at h
    obtain ⟨hx, hy, _, ho⟩ := h
    exact Or.inr (Or.inl ⟨by simp, by simp [← hx, ← hy], by simp [ho, ← hx, ← hy]⟩)
  | x :: y :: z :: t, h =>
    simp only [List.cons_append, List.nil_append, List.cons.injEq] at h
    obtain ⟨hx, hy, hz, _⟩ := h
    exact Or.inr (Or.inr ⟨t, by simp [← hx, ← hy, ← hz]⟩)

theorem takeWhile_length_le_append (p : Char → Bool) (xs ys : List Char) :
    (xs.takeWhile p).length ≤ ((xs ++ ys).takeWhile p).length := by
  induction xs with
  | nil => simp
  | cons x xs ih =>
    simp only [List.cons_append, List.takeWhile_cons]
    split
    · simpa using ih
    · simp

/-- The last segment of a joined path, read from the end, is the name. -/
theorem last_segment (isSep : Char → Bool) (A n : List Char)
    (hn : ∀ ch ∈ n, isSep ch = false)
    (hA : A = [] ∨ ∃ ch, A.getLast? = some ch ∧ isSep ch = true) :
    (A ++ n).reverse.takeWhile (fun ch => !isSep ch) = n.reverse := by
  rw [List.reverse_append, List.takeWhile_append_of_pos]
  · rcases hA with hA | ⟨ch, hlast, hch⟩
    · simp [hA]
    · have hrev : A.reverse.head? = some ch := by rw [List.head?_reverse]; exact hlast
      cases hr : A.reverse with
      | nil => rw [hr] at hrev; simp at hrev
      | cons x t =>
        rw [hr] at hrev
        simp only [List.head?_cons, Option.some.injEq] at hrev
        simp [List.takeWhile_cons, hrev, hch]
  · intro ch hch
    simp [hn ch (List.mem_reverse.mp hch)]

/-- One half of the injectivity of the identifier on character lists: the first local
path is a beginning of the second, and each pair ends in one name. -/
theorem identifier_split (isSep : Char → Bool) (hhy : isSep hyphen = false)
    (l1 o1 l2 o2 n1 n2 a : List Char)
    (hl : l2 = l1 ++ a)
    (ho : [hyphen, hyphen, hyphen] ++ o1 = a ++ ([hyphen, hyphen, hyphen] ++ o2))
    (hsep : ¬ [hyphen, hyphen, hyphen] <:+: l2)
    (hl1 : l1.reverse.takeWhile (fun ch => !isSep ch) = n1.reverse)
    (ho1 : o1.reverse.takeWhile (fun ch => !isSep ch) = n1.reverse)
    (hl2 : l2.reverse.takeWhile (fun ch => !isSep ch) = n2.reverse)
    (ho2 : o2.reverse.takeWhile (fun ch => !isSep ch) = n2.reverse) :
    l1 = l2 ∧ o1 = o2 := by
  rcases separator_overlap a o1 o2 ho with ⟨ha, hoo⟩ | ⟨hne, hall, hoa⟩ | ⟨t, ht⟩
  · subst ha
    exact ⟨by simp [hl], hoo⟩
  · exfalso
    have h2 : n2.length = a.length + n1.length := by
      have := congrArg List.length hl2
      rw [hl, List.reverse_append, List.takeWhile_append_of_pos, hl1] at this
      · simpa using this.symm
      · intro ch hch
        simp [hall ch (List.mem_reverse.mp hch), hhy]
    have h1 : n2.length ≤ n1.length := by
      have h := takeWhile_length_le_append (fun ch => !isSep ch) o2.reverse a.reverse
      rw [← List.reverse_append, ← hoa, ho1, ho2] at h
      simpa using h
    have : a.length = 0 := by omega
    exact hne (List.length_eq_zero.mp this)
  · exact absurd ⟨l1, t, by rw [hl, ht, List.append_assoc]⟩ hsep

/-- C11: the identifier identifies its work item.  For two entries, each with a local
path and a remote path built as in lines 73-74 by joining the name of the entry on to
a local and a remote directory, none of the four paths holding the separator `---`:
equal identifiers `localPath + "---" + ossPath` force equal local paths and equal
remote paths.  The hyphen is not a path separator. -/
theorem logValOf_injective (env : Env) (isSep : Char → Bool) (hhy : isSep hyphen = false)
    (localDir1 ossDir1 localDir2 ossDir2 : String) (e1 e2 : Entry)
    (hjl1 : JoinsName env.paths.join isSep localDir1 e1.name)
    (hjo1 : JoinsName env.paths.join isSep ossDir1 e1.name)
    (hjl2 : JoinsName env.paths.join isSep localDir2 e2.name)
    (hjo2 : JoinsName env.paths.join isSep ossDir2 e2.name)
    (hl1 : hasSeparator (env.paths.join localDir1 e1.name) = false)
    (ho1 : hasSeparator (env.paths.join ossDir1 e1.name) = false)
    (hl2 : hasSeparator (env.paths.join localDir2 e2.name) = false)
    (ho2 : hasSeparator (env.paths.join ossDir2 e2.name) = false)
    (heq : entryLogVal env localDir1 ossDir1 e1 = entryLogVal env localDir2 ossDir2 e2) :
    env.paths.join localDir1 e1.name = env.paths.join localDir2 e2.name ∧
    env.paths.join ossDir1 e1.name = env.paths.join ossDir2 e2.name := by
  have hd : (entryLogVal env localDir1 ossDir1 e1).data =
      (entryLogVal env localDir2 ossDir2 e2).data := by rw [heq]
  simp only [entryLogVal] at hd
  rw [logValOf_data, logValOf_data, List.append_eq_append_iff] at hd
  have hs1 : ¬ [hyphen, hyphen, hyphen] <:+: (env.paths.join localDir1 e1.name).data := by
    simpa [hasSeparator, separator] using hl1
  have hs2 : ¬ [hyphen, hyphen, hyphen] <:+: (env.paths.join localDir2 e2.name).data := by
    simpa [hasSeparator, separator] using hl2
  obtain ⟨hn1, A1, hA1, hA1s⟩ := hjl1
  obtain ⟨_, B1, hB1, hB1s⟩ := hjo1
  obtain ⟨hn2, A2, hA2, hA2s⟩ := hjl2
  obtain ⟨_, B2, hB2, hB2s⟩ := hjo2
  have tl1 := last_segment isSep A1 e1.name.data hn1 hA1s
  have to1 := last_segment isSep B1 e1.name.data hn1 hB1s
  have tl2 := last_segment isSep A2 e2.name.data hn2 hA2s
  have to2 := last_segment isSep B2 e2.name.data hn2 hB2s
  rw [← hA1] at tl1
  rw [← hB1] at to1
  rw [← hA2] at tl2
  rw [← hB2] at to2
  rcases hd with ⟨a, hl, ho⟩ | ⟨c, hl, ho⟩
  · obtain ⟨h1, h2⟩ := identifier_split isSep hhy _ _ _ _ _ _ a hl ho hs2 tl1 to1 tl2 to2
    exact ⟨String.ext h1, String.ext h2⟩
  · obtain ⟨h1, h2⟩ := identifier_split isSep hhy _ _ _ _ _ _ c hl ho hs1 tl2 to2 tl1 to1
    exact ⟨String.ext h1.symm, String.ext h2.symm⟩

/-- Witness of C11: the file `a-` of the directory `d`, sent to the remote directory
`-o`; hyphens stand on both sides of the separator in the identifier `d/a-----o/a-`. -/
theorem logValOf_injective_witness :
    posixLib.join "d" "a-" = posixLib.join "d" "a-" ∧
    posixLib.join "-o" "a-" = posixLib.join "-o" "a-" :=
  logValOf_injective envEmpty posixSep (by decide) "d" "-o" "d" "-o" (.file "a-") (.file "a-")
    ⟨by decide, "d/".data, by decide, Or.inr ⟨slash, by decide, by decide⟩⟩
    ⟨by decide, "-o/".data, by decide, Or.inr ⟨slash, by decide, by decide⟩⟩
    ⟨by decide, "d/".data, by decide, Or.inr ⟨slash, by decide, by decide⟩⟩
    ⟨by decide, "-o/".data, by decide, Or.inr ⟨slash, by decide, by decide⟩⟩
    (by decide) (by decide) (by decide) (by decide) rfl

end AliOssUploader
